import Mathlib

/-!
Verification of `src/real/minimal-real-generator.py`, a pruned backtracking
search that builds a Hadamard matrix of order `4n` by finding a symmetric
`(4n-1, 2n-1, n-1)` design of bit-rows (Python integers used as bitmasks).

Shallow embedding conventions:
* Python non-negative integers / bitmasks are `Nat`; the requirement entries
  `overlaps_needed`, which the source decrements and compares against `0`,
  are `Int`.
* `build_row` is a Python generator; it is embedded as the eager list of the
  values it yields, in yield order (the outer loop in `backtrack` restores
  the list `rows` before resuming the generator, so a suspended generator
  never observes a `prev_rows` different from the one it was created with,
  and the eager list is faithful).
* The recursion of `build_row` increments `bit_index` until it reaches `m`;
  the embedding recurses structurally on `rem = m - bit_index`, the number
  of remaining bit positions, which coincides with the source for every
  call with `bit_index ≤ m` (the only ones the program performs).
* `backtrack` recurses while `len(rows) < size - 1`, growing `rows` by one
  row per level; the embedding passes explicit fuel, consumed once per
  recursion level.  `find_minimal_hadamard` supplies fuel `4*n`, strictly
  more than the `4*n - 2` levels any run from the one-row start can reach,
  so the fuel-out branch (which returns `none`) is unreachable from
  `find_minimal_hadamard`.
* printing is embedded as the list of printed lines, each line being the
  structured data handed to `print`; the elapsed-time line is the marker
  `OutputLine.elapsed` (its wall-clock payload is outside the embedding).
-/

namespace MinimalReal

/-- Number of set bits of a natural number (`bin(x).count("1")` in Python
terms); fuelled so that it reduces definitionally.  `popcount_go fuel x`
computes the popcount of `x` provided `x ≤ fuel`. -/
def popcount_go : Nat → Nat → Nat
  | 0, _ => 0
  | fuel + 1, x => if x = 0 then 0 else popcount_go fuel (x / 2) + x % 2

/-- Popcount of a natural number. -/
def popcount (x : Nat) : Nat := popcount_go x x

/-- The requirement-update loop of the "place a 1" branch of `build_row`
(lines 17-25 of the source): for each `(prev, needed)` pair of
`zip(prev_rows, overlaps_needed)`, decrement `needed` when `prev` has a set
bit at `pos` (`(prev >> pos) & 1`), prune (`none`) as soon as an entry
leaves `[0, rem1]` where `rem1 = remaining_positions - 1`, otherwise
collect the updated entries. -/
def set_overlaps (pos : Nat) (rem1 : Int) : List Nat → List Int → Option (List Int)
  | prev :: ps, needed :: xs =>
    let needed' := if prev.testBit pos then needed - 1 else needed
    if needed' < 0 ∨ needed' > rem1 then none
    else (set_overlaps pos rem1 ps xs).map (fun l => needed' :: l)
  | _, _ => some []

/-- The requirement loop of the "place a 0" branch of `build_row`
(lines 34-41 of the source): entries are unchanged, but the branch is pruned
when a row with a set bit at `pos` still needs more overlaps than the
`rem1 = remaining_positions - 1` positions that remain. -/
def clear_overlaps (pos : Nat) (rem1 : Int) : List Nat → List Int → Option (List Int)
  | prev :: ps, needed :: xs =>
    if prev.testBit pos ∧ needed > rem1 then none
    else (clear_overlaps pos rem1 ps xs).map (fun l => needed :: l)
  | _, _ => some []

/-- Body of `build_row`, recursing structurally on `rem = m - bit_index`.
`rem = 0` is the source's base case `bit_index == m`: yield the accumulated
row iff `ones_left == 0` and every requirement entry is `0`.  Otherwise the
"set" branch (guarded by `ones_left > 0`) is emitted before the "clear"
branch, each recursing at `bit_index + 1` unless pruned. -/
def build_row_aux : Nat → Nat → Nat → Nat → List Nat → List Int → Nat → Nat → List Nat
  | 0, _bit_index, ones_left, current_row, _prev_rows, overlaps_needed, _m, _n =>
    if ones_left = 0 ∧ overlaps_needed.all (fun x => decide (x = 0)) then [current_row] else []
  | rem + 1, bit_index, ones_left, current_row, prev_rows, overlaps_needed, m, n =>
    let pos := m - 1 - bit_index
    let rem1 : Int := ((m - bit_index : Nat) : Int) - 1
    (match (if 0 < ones_left then set_overlaps pos rem1 prev_rows overlaps_needed else none) with
     | some new_overlaps =>
       build_row_aux rem (bit_index + 1) (ones_left - 1)
         (current_row ||| (1 <<< pos)) prev_rows new_overlaps m n
     | none => []) ++
    (match clear_overlaps pos rem1 prev_rows overlaps_needed with
     | some new_overlaps =>
       build_row_aux rem (bit_index + 1) ones_left current_row prev_rows new_overlaps m n
     | none => [])

/-- `build_row(bit_index, ones_left, current_row, prev_rows, overlaps_needed, m, n)`:
the list of rows the generator yields, in yield order. -/
def build_row (bit_index ones_left current_row : Nat) (prev_rows : List Nat)
    (overlaps_needed : List Int) (m n : Nat) : List Nat :=
  build_row_aux (m - bit_index) bit_index ones_left current_row prev_rows overlaps_needed m n

/-- The inner `backtrack` closure of `find_minimal_hadamard` (fuelled; one
unit of fuel per recursion level).  The `for candidate in build_row(...)`
loop with `if result: return result` is `List.findSome?`; a falsy result
(`None`, or an empty list) means "undo the append and try the next
candidate", which in this value-passing embedding is simply resuming with
the unextended `rows`. -/
def backtrack : Nat → Nat → Nat → Nat → Nat → List Nat → Option (List Nat)
  | 0, _, _, _, _, _ => none
  | fuel + 1, size, total_ones, m, n, rows =>
    if rows.length = size - 1 then some rows
    else
      (build_row 0 total_ones 0 rows (List.replicate rows.length ((n : Int) - 1)) m n).findSome?
        (fun candidate =>
          match backtrack fuel size total_ones m n (rows ++ [candidate]) with
          | some (r :: rs) => some (r :: rs)
          | _ => none)

/-- The synthesized first row of `find_minimal_hadamard` (line 50 of the
source): the leftmost `2n-1` of the `m = 4n-1` bit positions set. -/
def first_row (n : Nat) : Nat :=
  ((List.range (2 * n - 1)).map (fun i => 1 <<< (4 * n - 1 - 1 - i))).sum

/-- `find_minimal_hadamard(n)` for `n ≥ 1`: runs `backtrack` on the
one-element matrix `[first_row]` and returns its result (the full design
including the first row, or `None`). -/
def find_minimal_hadamard (n : Nat) : Option (List Nat) :=
  backtrack (4 * n) (4 * n) (2 * n - 1) (4 * n - 1) n [first_row n]

/-- One line of standard output: the elapsed-time diagnostic, or a
`Row <i>:` line together with the list of `0/1` values printed after the
label. -/
inductive OutputLine where
  | elapsed : OutputLine
  | row : Nat → List Int → OutputLine
deriving DecidableEq

/-- `print_hadamard_01(n, rows_bitmask)`: the `Row <i>:` lines it prints.
Row `0` is all ones; row `i ≥ 1` is a leading `1` followed by the `m` bits
of `rows_bitmask[i-1]` from most- to least-significant. -/
def print_hadamard_01 (n : Nat) (rows_bitmask : List Nat) : List OutputLine :=
  OutputLine.row 0 (List.replicate (4 * n) 1) ::
  rows_bitmask.enum.map (fun p =>
    OutputLine.row (p.1 + 1)
      (1 :: (List.range (4 * n - 1)).map
        (fun j => if p.2.testBit (4 * n - 1 - 1 - j) then (1 : Int) else 0)))

/-- The `__main__` block: the elapsed-time line is printed inside
`find_minimal_hadamard` after the search finishes; the matrix lines follow
only when the returned value is truthy (a non-empty list). -/
def main_output (n : Nat) : List OutputLine :=
  match find_minimal_hadamard n with
  | some (r :: rs) => OutputLine.elapsed :: print_hadamard_01 n (r :: rs)
  | _ => [OutputLine.elapsed]

/-- One iteration of the candidate loop of `backtrack`, state-instrumented:
`b` is the recursive call, the accumulator holds (result so far, current
contents of the Python list `rows`).  After a truthy result the loop body is
never executed again (`return result`); on a falsy result the appended
candidate is popped (`rows.pop()`, i.e. `dropLast`). -/
def stepS (b : List Nat → Option (List Nat) × List Nat)
    (acc : Option (List Nat) × List Nat) (candidate : Nat) : Option (List Nat) × List Nat :=
  match acc with
  | (some res, st) => (some res, st)
  | (none, st) =>
    match b (st ++ [candidate]) with
    | (some (r :: rs), st') => (some (r :: rs), st')
    | (_, st') => (none, st'.dropLast)

/-- State-instrumented `backtrack`: alongside the result it returns the
final contents of the Python list `rows`, which the source mutates in place
(`rows.append(candidate)` before the recursive call, `rows.pop()` on the
failure path, no pop on the success path). -/
def backtrackS : Nat → Nat → Nat → Nat → Nat → List Nat → Option (List Nat) × List Nat
  | 0, _, _, _, _, rows => (none, rows)
  | fuel + 1, size, total_ones, m, n, rows =>
    if rows.length = size - 1 then (some rows, rows)
    else
      (build_row 0 total_ones 0 rows (List.replicate rows.length ((n : Int) - 1)) m n).foldl
        (stepS (fun rows' => backtrackS fuel size total_ones m n rows'))
        (none, rows)

/-!
Int-valued model with explicit runtime errors, used to settle what the
program does on invalid parameters `n ≤ 0`.  Python raises `ValueError:
negative shift count` when `x >> k` or `x << k` is evaluated with `k < 0`;
the model makes every shift fallible.  For `n ≥ 1` every shift amount the
program uses is non-negative and the `Nat` model above is the authority.
-/

/-- Python `x >> k`: arithmetic (floor) shift, an error for `k < 0`. -/
def pyShiftRight (x k : Int) : Except String Int :=
  if k < 0 then .error "negative shift count" else .ok (Int.fdiv x (2 ^ k.toNat))

/-- Python `x << k`: an error for `k < 0`. -/
def pyShiftLeft (x k : Int) : Except String Int :=
  if k < 0 then .error "negative shift count" else .ok (x * 2 ^ k.toNat)

/-- `set_overlaps`, Int-valued and with the source's fallible bit test
`(prev >> pos) & 1`. -/
def set_overlapsE (pos rem1 : Int) : List Int → List Int → Except String (Option (List Int))
  | prev :: ps, needed :: xs => do
    let b ← pyShiftRight prev pos
    let needed' := if b % 2 = 1 then needed - 1 else needed
    if needed' < 0 ∨ needed' > rem1 then pure none
    else do
      match ← set_overlapsE pos rem1 ps xs with
      | none => pure none
      | some l => pure (some (needed' :: l))
  | _, _ => pure (some [])

/-- `clear_overlaps`, Int-valued and with the fallible bit test. -/
def clear_overlapsE (pos rem1 : Int) : List Int → List Int → Except String (Option (List Int))
  | prev :: ps, needed :: xs => do
    let b ← pyShiftRight prev pos
    if b % 2 = 1 ∧ needed > rem1 then pure none
    else do
      match ← clear_overlapsE pos rem1 ps xs with
      | none => pure none
      | some l => pure (some (needed :: l))
  | _, _ => pure (some [])

/-- `build_row` over Int arguments with fallible shifts, fuelled (the fuel
only pads the recursion depth `m - bit_index + 1` of the source and is
never exhausted at the call sites below). -/
def build_rowE : Nat → Int → Int → Int → List Int → List Int → Int → Int →
    Except String (List Int)
  | 0, _, _, _, _, _, _, _ => .error "fuel exhausted"
  | fuel + 1, bit_index, ones_left, current_row, prev_rows, overlaps_needed, m, n =>
    if bit_index = m then
      if ones_left = 0 ∧ overlaps_needed.all (fun x => decide (x = 0)) then
        pure [current_row]
      else pure []
    else do
      let setPart ←
        (if 0 < ones_left then do
          match ← set_overlapsE (m - 1 - bit_index) (m - bit_index - 1) prev_rows overlaps_needed with
          | some new_overlaps => do
            let b ← pyShiftLeft 1 (m - 1 - bit_index)
            build_rowE fuel (bit_index + 1) (ones_left - 1) (Int.lor current_row b)
              prev_rows new_overlaps m n
          | none => pure ([] : List Int)
        else pure ([] : List Int))
      let clearPart ←
        (match ← clear_overlapsE (m - 1 - bit_index) (m - bit_index - 1) prev_rows overlaps_needed with
         | some new_overlaps =>
           build_rowE fuel (bit_index + 1) ones_left current_row prev_rows new_overlaps m n
         | none => pure ([] : List Int))
      pure (setPart ++ clearPart)

/-- `backtrack` over Int arguments, exceptions propagating out of the
candidate loop. -/
def backtrackE : Nat → Int → Int → Int → Int → List Int → Except String (Option (List Int))
  | 0, _, _, _, _, _ => .error "fuel exhausted"
  | fuel + 1, size, total_ones, m, n, rows =>
    if (rows.length : Int) = size - 1 then pure (some rows)
    else do
      let cands ← build_rowE (m.toNat + 2) 0 total_ones 0 rows
        (List.replicate rows.length (n - 1)) m n
      cands.foldlM
        (fun acc candidate =>
          match acc with
          | some res => pure (some res)
          | none => do
            match ← backtrackE fuel size total_ones m n (rows ++ [candidate]) with
            | some (r :: rs) => pure (some (r :: rs))
            | _ => pure none)
        none

/-- `find_minimal_hadamard(n)` for arbitrary integer `n`, errors made
explicit.  For `n ≤ 0` the range building the first row is empty, and the
very first bit test of `build_row` evaluates `prev >> (m - 1)` with
`m - 1 = 4*n - 2 < 0`, raising before the elapsed-time line (printed only
after `backtrack` returns) and before any matrix output. -/
def find_minimal_hadamardE (n : Int) : Except String (Option (List Int)) := do
  let size := 4 * n
  let total_ones := 2 * n - 1
  let m := size - 1
  let shifts ← (List.range total_ones.toNat).mapM
    (fun (i : Nat) => pyShiftLeft 1 (m - 1 - (i : Int)))
  backtrackE (size.toNat + 1) size total_ones m n [shifts.sum]

/-- The `__main__` block over the Int model: an exception inside
`find_minimal_hadamard` propagates before the elapsed-time line (printed
only after `backtrack` returns), so an erroring run produces no output at
all.  The success branch is reachable only for `n ≥ 1`, where the `Nat`
model is the authority; it is referenced through `toNat`. -/
def main_outputE (n : Int) : Except String (List OutputLine) :=
  match find_minimal_hadamardE n with
  | .error e => .error e
  | .ok _ => .ok (main_output n.toNat)

/-! ### Popcount library -/

theorem popcount_go_eq (fuel fuel' x : Nat) (h : x ≤ fuel) (h' : x ≤ fuel') :
    popcount_go fuel x = popcount_go fuel' x := by
  induction fuel generalizing fuel' x with
  | zero =>
    interval_cases x
    cases fuel' with
    | zero => rfl
    | succ f => simp [popcount_go]
  | succ f ih =>
    by_cases hx : x = 0
    · subst hx
      cases fuel' with
      | zero => simp [popcount_go]
      | succ f' => simp [popcount_go]
    · cases fuel' with
      | zero => omega
      | succ f' =>
        simp only [popcount_go, if_neg hx]
        have := ih f' (x / 2) (by omega) (by omega)
        omega

theorem popcount_rec (x : Nat) : popcount x = popcount (x / 2) + x % 2 := by
  by_cases hx : x = 0
  · subst hx; rfl
  · unfold popcount
    cases x with
    | zero => rfl
    | succ y =>
      simp only [popcount_go, if_neg hx]
      have := popcount_go_eq y ((y + 1) / 2) ((y + 1) / 2) (by omega) (by omega)
      omega

theorem popcount_zero : popcount 0 = 0 := rfl

theorem popcount_two_mul (x : Nat) : popcount (2 * x) = popcount x := by
  rw [popcount_rec (2 * x)]
  have h1 : 2 * x / 2 = x := by omega
  have h2 : 2 * x % 2 = 0 := by omega
  rw [h1, h2]
  omega

theorem popcount_two_pow_add (k : Nat) : ∀ b : Nat, b < 2 ^ k →
    popcount (2 ^ k + b) = popcount b + 1 := by
  induction k with
  | zero =>
    intro b hb
    interval_cases b
    rfl
  | succ k ih =>
    intro b hb
    have hpow : 2 ^ (k + 1) = 2 ^ k * 2 := pow_succ 2 k
    rw [popcount_rec (2 ^ (k + 1) + b)]
    have h1 : (2 ^ (k + 1) + b) / 2 = 2 ^ k + b / 2 := by omega
    have h2 : (2 ^ (k + 1) + b) % 2 = b % 2 := by omega
    rw [h1, h2, ih (b / 2) (by omega), popcount_rec b]
    omega

theorem popcount_le (k : Nat) : ∀ b : Nat, b < 2 ^ k → popcount b ≤ k := by
  induction k with
  | zero => intro b hb; interval_cases b; simp [popcount_zero]
  | succ k ih =>
    intro b hb
    have hpow : 2 ^ (k + 1) = 2 ^ k * 2 := pow_succ 2 k
    have := ih (b / 2) (by omega)
    rw [popcount_rec b]
    omega

theorem popcount_land_le (b : Nat) : ∀ a : Nat, popcount (a &&& b) ≤ popcount b := by
  induction b using Nat.strong_induction_on with
  | _ b ih =>
    intro a
    by_cases hb : b = 0
    · subst hb; simp [Nat.and_zero, popcount_zero]
    · rw [popcount_rec (a &&& b), Nat.and_div_two, popcount_rec b]
      have h1 := ih (b / 2) (by omega) (a / 2)
      have h2 : (a &&& b) % 2 ≤ b % 2 := by
        rcases Nat.mod_two_eq_zero_or_one (a &&& b) with h | h
        · omega
        · have := Nat.and_mod_two_eq_one.mp h
          omega
      omega

theorem popcount_land_two_pow_add (p k s : Nat) (hs : s < 2 ^ k) :
    popcount (p &&& (2 ^ k + s)) = (if p.testBit k then 1 else 0) + popcount (p &&& s) := by
  have hor : 2 ^ k + s = 2 ^ k ||| s := by
    have := Nat.mul_add_lt_is_or hs 1
    simpa using this
  rw [hor, Nat.and_or_distrib_left, Nat.and_two_pow]
  cases hp : p.testBit k with
  | false => simp
  | true =>
    simp only [Bool.toNat_true, one_mul, if_pos]
    have hlt : p &&& s < 2 ^ k := lt_of_le_of_lt (Nat.and_le_right) hs
    have : 2 ^ k ||| (p &&& s) = 2 ^ k + (p &&& s) := by
      have := Nat.mul_add_lt_is_or hlt 1
      simpa using this.symm
    rw [this, popcount_two_pow_add k _ hlt]
    omega

theorem lor_eq_add (k a b : Nat) (ha : 2 ^ k ∣ a) (hb : b < 2 ^ k) : a ||| b = a + b := by
  obtain ⟨c, rfl⟩ := ha
  have := Nat.mul_add_lt_is_or hb c
  omega

theorem popcount_mul_two_pow (k a : Nat) : popcount (2 ^ k * a) = popcount a := by
  induction k with
  | zero => simp
  | succ k ih =>
    have : 2 ^ (k + 1) * a = 2 * (2 ^ k * a) := by ring
    rw [this, popcount_two_mul, ih]

theorem popcount_two_pow_sub_one (t : Nat) : popcount (2 ^ t - 1) = t := by
  induction t with
  | zero => simp [popcount_zero]
  | succ t ih =>
    have hpow : 2 ^ (t + 1) = 2 ^ t * 2 := pow_succ 2 t
    have hpos : 1 ≤ 2 ^ t := Nat.one_le_two_pow
    rw [popcount_rec (2 ^ (t + 1) - 1)]
    have h1 : (2 ^ (t + 1) - 1) / 2 = 2 ^ t - 1 := by omega
    have h2 : (2 ^ (t + 1) - 1) % 2 = 1 := by omega
    rw [h1, h2, ih]

theorem first_row_sum (t m : Nat) (h : t ≤ m) :
    ((List.range t).map (fun i => 1 <<< (m - 1 - i))).sum = 2 ^ m - 2 ^ (m - t) := by
  induction t with
  | zero => simp
  | succ t ih =>
    rw [List.range_succ, List.map_append, List.sum_append, ih (by omega)]
    have hsh : (1 : Nat) <<< (m - 1 - t) = 2 ^ (m - 1 - t) := by
      rw [Nat.shiftLeft_eq, one_mul]
    have e2 : m - 1 - t = m - (t + 1) := by omega
    have e1 : m - t = (m - (t + 1)) + 1 := by omega
    have hpow : 2 ^ ((m - (t + 1)) + 1) = 2 ^ (m - (t + 1)) * 2 := pow_succ 2 _
    have hle : 2 ^ (m - t) ≤ 2 ^ m := Nat.pow_le_pow_right (by omega) (by omega)
    simp only [List.map_cons, List.map_nil, List.sum_cons, List.sum_nil, hsh, e2]
    rw [e1] at hle ⊢
    omega

theorem first_row_eq (n : Nat) (h : 1 ≤ n) :
    first_row n = 2 ^ (4 * n - 1) - 2 ^ (4 * n - 1 - (2 * n - 1)) :=
  first_row_sum (2 * n - 1) (4 * n - 1) (by omega)

theorem first_row_lt (n : Nat) (h : 1 ≤ n) : first_row n < 2 ^ (4 * n - 1) := by
  rw [first_row_eq n h]
  have : (0 : Nat) < 2 ^ (4 * n - 1 - (2 * n - 1)) := Nat.pos_pow_of_pos _ (by omega)
  have : 2 ^ (4 * n - 1 - (2 * n - 1)) ≤ 2 ^ (4 * n - 1) :=
    Nat.pow_le_pow_right (by omega) (by omega)
  have : (0 : Nat) < 2 ^ (4 * n - 1) := Nat.pos_pow_of_pos _ (by omega)
  omega

theorem popcount_first_row (n : Nat) (h : 1 ≤ n) : popcount (first_row n) = 2 * n - 1 := by
  rw [first_row_eq n h]
  set t := 2 * n - 1 with ht
  set m := 4 * n - 1 with hm
  have htm : t ≤ m := by omega
  have key : 2 ^ m - 2 ^ (m - t) = 2 ^ (m - t) * (2 ^ t - 1) := by
    have h1 : 2 ^ (m - t) * ((2 ^ t - 1) + 1) = 2 ^ m := by
      have : (2 ^ t - 1) + 1 = 2 ^ t := by
        have : 1 ≤ 2 ^ t := Nat.one_le_two_pow
        omega
      rw [this, ← pow_add, Nat.sub_add_cancel htm]
    have h2 : 2 ^ (m - t) * ((2 ^ t - 1) + 1) = 2 ^ (m - t) * (2 ^ t - 1) + 2 ^ (m - t) := by
      ring
    omega
  rw [key, popcount_mul_two_pow, popcount_two_pow_sub_one]

/-! ### Characterization of `build_row` -/

theorem forall₂_const_right {α β : Type} (P : β → Prop) :
    ∀ (l : List α) (l' : List β), l.length = l'.length →
    (List.Forall₂ (fun _ x => P x) l l' ↔ ∀ x ∈ l', P x) := by
  intro l
  induction l with
  | nil =>
    intro l' hl
    cases l' with
    | nil => simp
    | cons x xs => simp at hl
  | cons a as ih =>
    intro l' hl
    cases l' with
    | nil => simp at hl
    | cons x xs =>
      simp only [List.forall₂_cons, List.mem_cons]
      rw [ih xs (by simpa using hl)]
      constructor
      · rintro ⟨hx, hxs⟩ y (rfl | hy)
        · exact hx
        · exact hxs y hy
      · intro hall
        exact ⟨hall x (Or.inl rfl), fun y hy => hall y (Or.inr hy)⟩

theorem forall₂_replicate_right {α : Type} (R : α → Int → Prop) (a : Int) :
    ∀ (l : List α), List.Forall₂ R l (List.replicate l.length a) ↔ ∀ x ∈ l, R x a := by
  intro l
  induction l with
  | nil => simp
  | cons b bs ih =>
    simp only [List.length_cons, List.replicate_succ, List.forall₂_cons, List.mem_cons]
    rw [ih]
    constructor
    · rintro ⟨hb, hbs⟩ y (rfl | hy)
      · exact hb
      · exact hbs y hy
    · intro hall
      exact ⟨hall b (Or.inl rfl), fun y hy => hall y (Or.inr hy)⟩

theorem set_overlaps_cons_true {pos : Nat} {rem1 : Int} {p : Nat} {ps : List Nat}
    {x : Int} {xs : List Int} (hp : p.testBit pos = true) :
    set_overlaps pos rem1 (p :: ps) (x :: xs) =
      if x - 1 < 0 ∨ x - 1 > rem1 then none
      else (set_overlaps pos rem1 ps xs).map (fun l => (x - 1) :: l) := by
  simp [set_overlaps, hp]

theorem set_overlaps_cons_false {pos : Nat} {rem1 : Int} {p : Nat} {ps : List Nat}
    {x : Int} {xs : List Int} (hp : p.testBit pos = false) :
    set_overlaps pos rem1 (p :: ps) (x :: xs) =
      if x < 0 ∨ x > rem1 then none
      else (set_overlaps pos rem1 ps xs).map (fun l => x :: l) := by
  simp [set_overlaps, hp]

theorem clear_overlaps_cons_true {pos : Nat} {rem1 : Int} {p : Nat} {ps : List Nat}
    {x : Int} {xs : List Int} (hp : p.testBit pos = true) :
    clear_overlaps pos rem1 (p :: ps) (x :: xs) =
      if x > rem1 then none
      else (clear_overlaps pos rem1 ps xs).map (fun l => x :: l) := by
  simp [clear_overlaps, hp]

theorem clear_overlaps_cons_false {pos : Nat} {rem1 : Int} {p : Nat} {ps : List Nat}
    {x : Int} {xs : List Int} (hp : p.testBit pos = false) :
    clear_overlaps pos rem1 (p :: ps) (x :: xs) =
      (clear_overlaps pos rem1 ps xs).map (fun l => x :: l) := by
  simp [clear_overlaps, hp]

theorem set_overlaps_length (pos : Nat) (rem1 : Int) :
    ∀ (prevs : List Nat) (reqs l : List Int),
    set_overlaps pos rem1 prevs reqs = some l → l.length = min prevs.length reqs.length := by
  intro prevs
  induction prevs with
  | nil =>
    intro reqs l h
    obtain rfl : l = [] := by simpa [set_overlaps] using h.symm
    simp
  | cons p ps ih =>
    intro reqs l h
    cases reqs with
    | nil =>
      obtain rfl : l = [] := by simpa [set_overlaps] using h.symm
      simp
    | cons x xs =>
      cases hp : p.testBit pos with
      | true =>
        rw [set_overlaps_cons_true hp] at h
        by_cases hc : x - 1 < 0 ∨ x - 1 > rem1
        · rw [if_pos hc] at h; exact absurd h (by simp)
        · rw [if_neg hc, Option.map_eq_some'] at h
          obtain ⟨l', hl', rfl⟩ := h
          simp [ih xs l' hl', Nat.succ_min_succ]
      | false =>
        rw [set_overlaps_cons_false hp] at h
        by_cases hc : x < 0 ∨ x > rem1
        · rw [if_pos hc] at h; exact absurd h (by simp)
        · rw [if_neg hc, Option.map_eq_some'] at h
          obtain ⟨l', hl', rfl⟩ := h
          simp [ih xs l' hl', Nat.succ_min_succ]

theorem clear_overlaps_length (pos : Nat) (rem1 : Int) :
    ∀ (prevs : List Nat) (reqs l : List Int),
    clear_overlaps pos rem1 prevs reqs = some l → l.length = min prevs.length reqs.length := by
  intro prevs
  induction prevs with
  | nil =>
    intro reqs l h
    obtain rfl : l = [] := by simpa [clear_overlaps] using h.symm
    simp
  | cons p ps ih =>
    intro reqs l h
    cases reqs with
    | nil =>
      obtain rfl : l = [] := by simpa [clear_overlaps] using h.symm
      simp
    | cons x xs =>
      cases hp : p.testBit pos with
      | true =>
        rw [clear_overlaps_cons_true hp] at h
        by_cases hc : x > rem1
        · rw [if_pos hc] at h; exact absurd h (by simp)
        · rw [if_neg hc, Option.map_eq_some'] at h
          obtain ⟨l', hl', rfl⟩ := h
          simp [ih xs l' hl', Nat.succ_min_succ]
      | false =>
        rw [clear_overlaps_cons_false hp, Option.map_eq_some'] at h
        obtain ⟨l', hl', rfl⟩ := h
        simp [ih xs l' hl', Nat.succ_min_succ]

/-- The "place a 1" requirement update succeeds exactly on the requirement
vectors that the completed suffix `2^k + s` (bit `k` set, then `s`) can
still satisfy, and the updated entries are what the suffix `s` must satisfy. -/
theorem set_branch_iff (k s : Nat) (hs : s < 2 ^ k) :
    ∀ (prevs : List Nat) (reqs : List Int), prevs.length = reqs.length →
    (List.Forall₂ (fun p x => (popcount (p &&& (2 ^ k + s)) : Int) = x) prevs reqs ↔
      ∃ reqs', set_overlaps k (k : Int) prevs reqs = some reqs' ∧
        List.Forall₂ (fun p x => (popcount (p &&& s) : Int) = x) prevs reqs') := by
  intro prevs
  induction prevs with
  | nil =>
    intro reqs hl
    cases reqs with
    | nil => simp [set_overlaps]
    | cons x xs => simp at hl
  | cons p ps ih =>
    intro reqs hl
    cases reqs with
    | nil => simp at hl
    | cons x xs =>
      have hlen : ps.length = xs.length := by simpa using hl
      have hsplit := popcount_land_two_pow_add p k s hs
      have hle : popcount (p &&& s) ≤ k :=
        le_trans (popcount_land_le s p) (popcount_le k s hs)
      cases hp : p.testBit k with
      | true =>
        rw [if_pos hp] at hsplit
        rw [List.forall₂_cons, set_overlaps_cons_true hp]
        constructor
        · rintro ⟨hhead, htail⟩
          have hneed : x - 1 = (popcount (p &&& s) : Int) := by omega
          obtain ⟨tail', htail', hftail⟩ := (ih xs hlen).mp htail
          refine ⟨(x - 1) :: tail', ?_, List.Forall₂.cons hneed.symm hftail⟩
          rw [if_neg (by omega), htail']
          rfl
        · rintro ⟨reqs', hsome, hf⟩
          by_cases hc : x - 1 < 0 ∨ x - 1 > (k : Int)
          · rw [if_pos hc] at hsome
            exact absurd hsome (by simp)
          · rw [if_neg hc, Option.map_eq_some'] at hsome
            obtain ⟨tail', htail', rfl⟩ := hsome
            rw [List.forall₂_cons] at hf
            obtain ⟨hhead, hftail⟩ := hf
            exact ⟨by omega, (ih xs hlen).mpr ⟨tail', htail', hftail⟩⟩
      | false =>
        rw [if_neg (by simp [hp])] at hsplit
        rw [List.forall₂_cons, set_overlaps_cons_false hp]
        constructor
        · rintro ⟨hhead, htail⟩
          have hneed : x = (popcount (p &&& s) : Int) := by omega
          obtain ⟨tail', htail', hftail⟩ := (ih xs hlen).mp htail
          refine ⟨x :: tail', ?_, List.Forall₂.cons hneed.symm hftail⟩
          rw [if_neg (by omega), htail']
          rfl
        · rintro ⟨reqs', hsome, hf⟩
          by_cases hc : x < 0 ∨ x > (k : Int)
          · rw [if_pos hc] at hsome
            exact absurd hsome (by simp)
          · rw [if_neg hc, Option.map_eq_some'] at hsome
            obtain ⟨tail', htail', rfl⟩ := hsome
            rw [List.forall₂_cons] at hf
            obtain ⟨hhead, hftail⟩ := hf
            exact ⟨by omega, (ih xs hlen).mpr ⟨tail', htail', hftail⟩⟩

/-- The "place a 0" requirement check succeeds exactly on the requirement
vectors that the completed suffix `s` (bit `k` clear) can still satisfy,
leaving the entries unchanged. -/
theorem clear_branch_iff (k s : Nat) (hs : s < 2 ^ k) :
    ∀ (prevs : List Nat) (reqs : List Int), prevs.length = reqs.length →
    (List.Forall₂ (fun p x => (popcount (p &&& s) : Int) = x) prevs reqs ↔
      ∃ reqs', clear_overlaps k (k : Int) prevs reqs = some reqs' ∧
        List.Forall₂ (fun p x => (popcount (p &&& s) : Int) = x) prevs reqs') := by
  intro prevs
  induction prevs with
  | nil =>
    intro reqs hl
    cases reqs with
    | nil => simp [clear_overlaps]
    | cons x xs => simp at hl
  | cons p ps ih =>
    intro reqs hl
    cases reqs with
    | nil => simp at hl
    | cons x xs =>
      have hlen : ps.length = xs.length := by simpa using hl
      have hle : popcount (p &&& s) ≤ k :=
        le_trans (popcount_land_le s p) (popcount_le k s hs)
      cases hp : p.testBit k with
      | true =>
        rw [List.forall₂_cons, clear_overlaps_cons_true hp]
        constructor
        · rintro ⟨hhead, htail⟩
          obtain ⟨tail', htail', hftail⟩ := (ih xs hlen).mp htail
          refine ⟨x :: tail', ?_, List.Forall₂.cons hhead hftail⟩
          rw [if_neg (by omega), htail']
          rfl
        · rintro ⟨reqs', hsome, hf⟩
          by_cases hc : x > (k : Int)
          · rw [if_pos hc] at hsome
            exact absurd hsome (by simp)
          · rw [if_neg hc, Option.map_eq_some'] at hsome
            obtain ⟨tail', htail', rfl⟩ := hsome
            rw [List.forall₂_cons] at hf
            obtain ⟨hhead, hftail⟩ := hf
            exact ⟨hhead, (ih xs hlen).mpr ⟨tail', htail', hftail⟩⟩
      | false =>
        rw [List.forall₂_cons, clear_overlaps_cons_false hp]
        constructor
        · rintro ⟨hhead, htail⟩
          obtain ⟨tail', htail', hftail⟩ := (ih xs hlen).mp htail
          refine ⟨x :: tail', ?_, List.Forall₂.cons hhead hftail⟩
          rw [htail']
          rfl
        · rintro ⟨reqs', hsome, hf⟩
          rw [Option.map_eq_some'] at hsome
          obtain ⟨tail', htail', rfl⟩ := hsome
          rw [List.forall₂_cons] at hf
          obtain ⟨hhead, hftail⟩ := hf
          exact ⟨hhead, (ih xs hlen).mpr ⟨tail', htail', hftail⟩⟩

/-- Membership characterization for `build_row_aux`: with `rem = m - bit_index`
remaining positions, the rows yielded are exactly `current_row ||| s` for the
suffixes `s < 2^rem` having `ones_left` set bits and meeting every remaining
overlap requirement.  In particular the pruning removes no valid candidate. -/
theorem build_row_aux_mem (m n : Nat) :
    ∀ (rem bit_index ones_left current_row : Nat) (prevs : List Nat) (reqs : List Int),
    bit_index + rem = m → prevs.length = reqs.length →
    ∀ r, r ∈ build_row_aux rem bit_index ones_left current_row prevs reqs m n ↔
      ∃ s, s < 2 ^ rem ∧ r = current_row ||| s ∧ popcount s = ones_left ∧
        List.Forall₂ (fun p x => (popcount (p &&& s) : Int) = x) prevs reqs := by
  intro rem
  induction rem with
  | zero =>
    intro bit_index ones_left current_row prevs reqs h hlen r
    simp only [build_row_aux]
    constructor
    · intro hr
      by_cases hcond : ones_left = 0 ∧ (List.all reqs fun x => decide (x = 0)) = true
      · rw [if_pos hcond, List.mem_singleton] at hr
        subst hr
        have hall : ∀ x ∈ reqs, x = 0 := by
          intro x hx
          simpa using List.all_eq_true.mp hcond.2 x hx
        refine ⟨0, by norm_num, by simp, by simp [popcount_zero, hcond.1], ?_⟩
        have hbase : List.Forall₂ (fun (_ : Nat) (x : Int) => (0 : Int) = x) prevs reqs :=
          (forall₂_const_right (fun x => (0 : Int) = x) prevs reqs hlen).mpr
            (fun x hx => (hall x hx).symm)
        exact hbase.imp (fun h0 => by simpa [Nat.and_zero, popcount_zero] using h0)
      · rw [if_neg hcond] at hr
        simp at hr
    · rintro ⟨s, hslt, hr, hpc, hf⟩
      have hs0 : s = 0 := by
        have : (2 : Nat) ^ 0 = 1 := rfl
        omega
      subst hs0
      have h0 : ones_left = 0 := by
        rw [popcount_zero] at hpc
        omega
      have hall : ∀ x ∈ reqs, x = 0 := by
        have hconv : List.Forall₂ (fun (_ : Nat) (x : Int) => (0 : Int) = x) prevs reqs :=
          hf.imp (fun h0 => by simpa [Nat.and_zero, popcount_zero] using h0)
        intro x hx
        exact ((forall₂_const_right (fun x => (0 : Int) = x) prevs reqs hlen).mp hconv x hx).symm
      rw [if_pos ⟨h0, List.all_eq_true.mpr (fun x hx => by simpa using hall x hx)⟩]
      simp [hr]
  | succ rem ih =>
    intro bit_index ones_left current_row prevs reqs h hlen r
    have hpos : m - 1 - bit_index = rem := by omega
    have hrem1 : ((m - bit_index : Nat) : Int) - 1 = (rem : Int) := by
      have hmb : m - bit_index = rem + 1 := by omega
      rw [hmb]
      push_cast
      ring
    have hpow : 2 ^ (rem + 1) = 2 ^ rem * 2 := pow_succ 2 rem
    have hsh : (1 : Nat) <<< rem = 2 ^ rem := by rw [Nat.shiftLeft_eq, one_mul]
    simp only [build_row_aux, hpos, hrem1, List.mem_append]
    constructor
    · rintro (hset | hclear)
      · by_cases hol : 0 < ones_left
        · rw [if_pos hol] at hset
          cases hso : set_overlaps rem (rem : Int) prevs reqs with
          | none => rw [hso] at hset; simp at hset
          | some reqs' =>
            rw [hso] at hset
            have hlen' : prevs.length = reqs'.length := by
              have hml := set_overlaps_length rem (rem : Int) prevs reqs reqs' hso
              rw [hlen, Nat.min_self] at hml
              omega
            obtain ⟨s', hs', hr, hpc, hf⟩ := (ih (bit_index + 1) (ones_left - 1)
              (current_row ||| 1 <<< rem) prevs reqs' (by omega) hlen' r).mp hset
            refine ⟨2 ^ rem + s', by omega, ?_, ?_, ?_⟩
            · rw [hr, hsh, Nat.or_assoc, lor_eq_add rem (2 ^ rem) s' (dvd_refl _) hs']
            · rw [popcount_two_pow_add rem s' hs']
              omega
            · exact (set_branch_iff rem s' hs' prevs reqs hlen).mpr ⟨reqs', hso, hf⟩
        · rw [if_neg hol] at hset
          simp at hset
      · cases hco : clear_overlaps rem (rem : Int) prevs reqs with
        | none => rw [hco] at hclear; simp at hclear
        | some reqs' =>
          rw [hco] at hclear
          have hlen' : prevs.length = reqs'.length := by
            have hml := clear_overlaps_length rem (rem : Int) prevs reqs reqs' hco
            rw [hlen, Nat.min_self] at hml
            omega
          obtain ⟨s', hs', hr, hpc, hf⟩ := (ih (bit_index + 1) ones_left current_row
            prevs reqs' (by omega) hlen' r).mp hclear
          exact ⟨s', by omega, hr, hpc,
            (clear_branch_iff rem s' hs' prevs reqs hlen).mpr ⟨reqs', hco, hf⟩⟩
    · rintro ⟨s, hslt, hr, hpc, hf⟩
      by_cases hbit : 2 ^ rem ≤ s
      · obtain ⟨s', rfl⟩ : ∃ s', s = 2 ^ rem + s' := ⟨s - 2 ^ rem, by omega⟩
        have hs' : s' < 2 ^ rem := by omega
        have hol : 0 < ones_left := by
          rw [popcount_two_pow_add rem s' hs'] at hpc
          omega
        obtain ⟨reqs', hso, hf'⟩ := (set_branch_iff rem s' hs' prevs reqs hlen).mp hf
        left
        rw [if_pos hol, hso]
        have hlen' : prevs.length = reqs'.length := by
          have hml := set_overlaps_length rem (rem : Int) prevs reqs reqs' hso
          rw [hlen, Nat.min_self] at hml
          omega
        apply (ih (bit_index + 1) (ones_left - 1) (current_row ||| 1 <<< rem)
          prevs reqs' (by omega) hlen' r).mpr
        refine ⟨s', hs', ?_, ?_, hf'⟩
        · rw [hr, hsh, Nat.or_assoc, lor_eq_add rem (2 ^ rem) s' (dvd_refl _) hs']
        · rw [popcount_two_pow_add rem s' hs'] at hpc
          omega
      · have hs' : s < 2 ^ rem := by omega
        obtain ⟨reqs', hco, hf'⟩ := (clear_branch_iff rem s hs' prevs reqs hlen).mp hf
        right
        rw [hco]
        have hlen' : prevs.length = reqs'.length := by
          have hml := clear_overlaps_length rem (rem : Int) prevs reqs reqs' hco
          rw [hlen, Nat.min_self] at hml
          omega
        exact (ih (bit_index + 1) ones_left current_row prevs reqs' (by omega) hlen' r).mpr
          ⟨s, hs', hr, hpc, hf'⟩

/-- Top-level membership characterization of `build_row` as invoked by the
search (`bit_index = 0`, empty accumulator). -/
theorem build_row_mem (m n ones_left : Nat) (prevs : List Nat) (reqs : List Int)
    (hlen : prevs.length = reqs.length) (r : Nat) :
    r ∈ build_row 0 ones_left 0 prevs reqs m n ↔
      (r < 2 ^ m ∧ popcount r = ones_left ∧
        List.Forall₂ (fun p x => (popcount (p &&& r) : Int) = x) prevs reqs) := by
  rw [build_row, show m - 0 = m from rfl,
    build_row_aux_mem m n m 0 ones_left 0 prevs reqs (by omega) hlen r]
  constructor
  · rintro ⟨s, hs, rfl, hpc, hf⟩
    rw [Nat.zero_or]
    exact ⟨hs, hpc, hf⟩
  · rintro ⟨h1, h2, h3⟩
    exact ⟨r, h1, (Nat.zero_or r).symm, h2, h3⟩

/-- Base case of `build_row` (`bit_index = m`): the accumulated row is
yielded iff no ones remain to place and every requirement entry is `0`. -/
theorem build_row_base (m n ones_left current_row : Nat) (prevs : List Nat)
    (reqs : List Int) (r : Nat) :
    r ∈ build_row m ones_left current_row prevs reqs m n ↔
      (r = current_row ∧ ones_left = 0 ∧ ∀ x ∈ reqs, x = 0) := by
  rw [build_row, Nat.sub_self]
  simp only [build_row_aux]
  by_cases hcond : ones_left = 0 ∧ (List.all reqs fun x => decide (x = 0)) = true
  · rw [if_pos hcond]
    simp only [List.mem_singleton]
    constructor
    · rintro rfl
      exact ⟨rfl, hcond.1, fun x hx => by simpa using List.all_eq_true.mp hcond.2 x hx⟩
    · rintro ⟨rfl, _, _⟩
      rfl
  · rw [if_neg hcond]
    simp only [List.not_mem_nil, false_iff]
    rintro ⟨rfl, h0, hall⟩
    exact hcond ⟨h0, List.all_eq_true.mpr (fun x hx => by simpa using hall x hx)⟩

/-- Every row yielded from the state `(bit_index, current_row)` is
`current_row` with some suffix of the remaining `rem = m - bit_index` low
bits OR-ed in. -/
theorem build_row_aux_shape (m n : Nat) :
    ∀ (rem bit_index ones_left current_row : Nat) (prevs : List Nat) (reqs : List Int),
    bit_index + rem = m →
    ∀ r ∈ build_row_aux rem bit_index ones_left current_row prevs reqs m n,
      ∃ s, s < 2 ^ rem ∧ r = current_row ||| s := by
  intro rem
  induction rem with
  | zero =>
    intro bit_index ones_left current_row prevs reqs h r hr
    simp only [build_row_aux] at hr
    split at hr
    · rw [List.mem_singleton] at hr
      exact ⟨0, by norm_num, by simp [hr]⟩
    · simp at hr
  | succ rem ih =>
    intro bit_index ones_left current_row prevs reqs h r hr
    have hpow : 2 ^ (rem + 1) = 2 ^ rem * 2 := pow_succ 2 rem
    have hsh : (1 : Nat) <<< (m - 1 - bit_index) = 2 ^ rem := by
      rw [Nat.shiftLeft_eq, one_mul, show m - 1 - bit_index = rem from by omega]
    simp only [build_row_aux, List.mem_append] at hr
    rcases hr with hset | hclear
    · cases hso : (if 0 < ones_left then
          set_overlaps (m - 1 - bit_index) (((m - bit_index : Nat) : Int) - 1) prevs reqs
        else none) with
      | none => rw [hso] at hset; simp at hset
      | some reqs' =>
        rw [hso] at hset
        obtain ⟨s', hs', hr⟩ := ih (bit_index + 1) (ones_left - 1)
          (current_row ||| 1 <<< (m - 1 - bit_index)) prevs reqs' (by omega) r hset
        refine ⟨2 ^ rem ||| s', Nat.or_lt_two_pow (by omega) (by omega), ?_⟩
        rw [hr, hsh, Nat.or_assoc]
    · cases hco : clear_overlaps (m - 1 - bit_index) (((m - bit_index : Nat) : Int) - 1)
          prevs reqs with
      | none => rw [hco] at hclear; simp at hclear
      | some reqs' =>
        rw [hco] at hclear
        obtain ⟨s', hs', hr⟩ := ih (bit_index + 1) ones_left current_row prevs reqs'
          (by omega) r hclear
        exact ⟨s', by omega, hr⟩

/-- Candidates are yielded in strictly descending numeric order: the "set"
branch is explored before the "clear" branch at every position, and the
prefix occupies only bit positions above the remaining ones. -/
theorem build_row_aux_sorted (m n : Nat) :
    ∀ (rem bit_index ones_left current_row : Nat) (prevs : List Nat) (reqs : List Int),
    bit_index + rem = m → 2 ^ rem ∣ current_row →
    List.Pairwise (· > ·) (build_row_aux rem bit_index ones_left current_row prevs reqs m n) := by
  intro rem
  induction rem with
  | zero =>
    intro bit_index ones_left current_row prevs reqs h hdvd
    simp only [build_row_aux]
    split
    · simp
    · simp
  | succ rem ih =>
    intro bit_index ones_left current_row prevs reqs h hdvd
    have hpow : 2 ^ (rem + 1) = 2 ^ rem * 2 := pow_succ 2 rem
    have hsh : (1 : Nat) <<< (m - 1 - bit_index) = 2 ^ rem := by
      rw [Nat.shiftLeft_eq, one_mul, show m - 1 - bit_index = rem from by omega]
    have hdvd' : 2 ^ rem ∣ current_row := dvd_trans (pow_dvd_pow 2 (by omega)) hdvd
    have hcur : current_row ||| 1 <<< (m - 1 - bit_index) = current_row + 2 ^ rem := by
      rw [hsh]
      exact lor_eq_add (rem + 1) current_row (2 ^ rem) hdvd (by omega)
    simp only [build_row_aux]
    rw [List.pairwise_append]
    refine ⟨?_, ?_, ?_⟩
    · cases hso : (if 0 < ones_left then
          set_overlaps (m - 1 - bit_index) (((m - bit_index : Nat) : Int) - 1) prevs reqs
        else none) with
      | none => simp
      | some reqs' =>
        apply ih (bit_index + 1) (ones_left - 1) _ prevs reqs' (by omega)
        rw [hcur]
        exact Nat.dvd_add hdvd' (dvd_refl _)
    · cases hco : clear_overlaps (m - 1 - bit_index) (((m - bit_index : Nat) : Int) - 1)
          prevs reqs with
      | none => simp
      | some reqs' => exact ih (bit_index + 1) ones_left current_row prevs reqs' (by omega) hdvd'
    · intro a ha b hb
      have hamem : ∃ s, s < 2 ^ rem ∧ a = (current_row ||| 1 <<< (m - 1 - bit_index)) ||| s := by
        cases hso : (if 0 < ones_left then
            set_overlaps (m - 1 - bit_index) (((m - bit_index : Nat) : Int) - 1) prevs reqs
          else none) with
        | none => rw [hso] at ha; simp at ha
        | some reqs' =>
          rw [hso] at ha
          exact build_row_aux_shape m n rem (bit_index + 1) (ones_left - 1) _ prevs reqs'
            (by omega) a ha
      have hbmem : ∃ s, s < 2 ^ rem ∧ b = current_row ||| s := by
        cases hco : clear_overlaps (m - 1 - bit_index) (((m - bit_index : Nat) : Int) - 1)
            prevs reqs with
        | none => rw [hco] at hb; simp at hb
        | some reqs' =>
          rw [hco] at hb
          exact build_row_aux_shape m n rem (bit_index + 1) ones_left current_row prevs reqs'
            (by omega) b hb
      obtain ⟨s₁, hs₁, rfl⟩ := hamem
      obtain ⟨s₂, hs₂, rfl⟩ := hbmem
      rw [hcur, lor_eq_add rem (current_row + 2 ^ rem) s₁
        (Nat.dvd_add hdvd' (dvd_refl _)) hs₁,
        lor_eq_add rem current_row s₂ hdvd' hs₂]
      omega

/-- Invariant of the partial matrix during the search: every accepted row
is an `m`-bit row with `total_ones` set bits, and every pair of accepted
rows overlaps in exactly `lam` positions. -/
def design_inv (m total_ones : Nat) (lam : Int) (rows : List Nat) : Prop :=
  (∀ r ∈ rows, r < 2 ^ m ∧ popcount r = total_ones) ∧
  List.Pairwise (fun a b => (popcount (a &&& b) : Int) = lam) rows

theorem backtrack_sound :
    ∀ (fuel size total_ones m n : Nat) (rows : List Nat),
    design_inv m total_ones ((n : Int) - 1) rows →
    ∀ res, backtrack fuel size total_ones m n rows = some res →
      design_inv m total_ones ((n : Int) - 1) res ∧ res.length = size - 1 := by
  intro fuel
  induction fuel with
  | zero =>
    intro size total_ones m n rows _ res hres
    simp [backtrack] at hres
  | succ fuel ih =>
    intro size total_ones m n rows hinv res hres
    simp only [backtrack] at hres
    by_cases hlen : rows.length = size - 1
    · rw [if_pos hlen] at hres
      obtain rfl : rows = res := by simpa using hres
      exact ⟨hinv, hlen⟩
    · rw [if_neg hlen] at hres
      obtain ⟨c, hcmem, hceq⟩ := List.exists_of_findSome?_eq_some hres
      cases hb : backtrack fuel size total_ones m n (rows ++ [c]) with
      | none => rw [hb] at hceq; simp at hceq
      | some res' =>
        cases res' with
        | nil => rw [hb] at hceq; simp at hceq
        | cons r rs =>
          rw [hb] at hceq
          obtain rfl : r :: rs = res := by simpa using hceq
          have hclen : rows.length = (List.replicate rows.length ((n : Int) - 1)).length :=
            (List.length_replicate _ _).symm
          rw [build_row_mem m n total_ones rows _ hclen c] at hcmem
          obtain ⟨hclt, hcpc, hcf⟩ := hcmem
          have hcall : ∀ p ∈ rows, (popcount (p &&& c) : Int) = (n : Int) - 1 := by
            intro p hp
            exact (forall₂_replicate_right
              (fun p x => (popcount (p &&& c) : Int) = x) ((n : Int) - 1) rows).mp hcf p hp
          have hinv' : design_inv m total_ones ((n : Int) - 1) (rows ++ [c]) := by
            constructor
            · intro x hx
              rcases List.mem_append.mp hx with hx | hx
              · exact hinv.1 x hx
              · rw [List.mem_singleton] at hx
                subst hx
                exact ⟨hclt, hcpc⟩
            · rw [List.pairwise_append]
              refine ⟨hinv.2, by simp, ?_⟩
              intro a ha b hb'
              rw [List.mem_singleton] at hb'
              subst hb'
              exact hcall a ha
          exact ih size total_ones m n (rows ++ [c]) hinv' (r :: rs) hb

/-- Soundness of the full search: whatever design `find_minimal_hadamard`
returns consists of `4n-1` rows below `2^(4n-1)` with `2n-1` set bits each
and pairwise overlap `n-1`. -/
theorem find_sound (n : Nat) (hn : 1 ≤ n) (res : List Nat)
    (hf : find_minimal_hadamard n = some res) :
    design_inv (4 * n - 1) (2 * n - 1) ((n : Int) - 1) res ∧ res.length = 4 * n - 1 := by
  have hinit : design_inv (4 * n - 1) (2 * n - 1) ((n : Int) - 1) [first_row n] := by
    constructor
    · intro r hr
      rw [List.mem_singleton] at hr
      subst hr
      exact ⟨first_row_lt n hn, popcount_first_row n hn⟩
    · simp
  have := backtrack_sound (4 * n) (4 * n) (2 * n - 1) (4 * n - 1) n [first_row n] hinit res hf
  exact this

theorem forall₂_exists_left {α β : Type} {R : α → β → Prop} :
    ∀ {l : List α} {l' : List β}, List.Forall₂ R l l' → ∀ x ∈ l', ∃ a ∈ l, R a x := by
  intro l l' h
  induction h with
  | nil => intro x hx; simp at hx
  | cons hab htail ih =>
    intro x hx
    rcases List.mem_cons.mp hx with rfl | hx
    · exact ⟨_, List.mem_cons_self _ _, hab⟩
    · obtain ⟨a, ha, hr⟩ := ih x hx
      exact ⟨a, List.mem_cons_of_mem _ ha, hr⟩

/-- Claim C1: for every `n ≥ 1`, a returned design is a list of exactly
`4n-1` bit-rows of width `m = 4n-1`, every row has popcount `2n-1`, and
every two distinct rows overlap in exactly `n-1` set positions. -/
theorem C1_find_returns_design (n : Nat) (hn : 1 ≤ n) (res : List Nat)
    (hf : find_minimal_hadamard n = some res) :
    res.length = 4 * n - 1 ∧
    (∀ r ∈ res, r < 2 ^ (4 * n - 1) ∧ popcount r = 2 * n - 1) ∧
    (∀ i j : Fin res.length, i ≠ j → popcount (res.get i &&& res.get j) = n - 1) := by
  obtain ⟨⟨hmem, hpw⟩, hlen⟩ := find_sound n hn res hf
  refine ⟨hlen, hmem, ?_⟩
  have key : ∀ i j : Fin res.length, i < j → popcount (res.get i &&& res.get j) = n - 1 := by
    intro i j hlt
    have := List.pairwise_iff_get.mp hpw i j hlt
    omega
  intro i j hij
  rcases Ne.lt_or_lt hij with h | h
  · exact key i j h
  · rw [Nat.land_comm]
    exact key j i h

theorem C1_find_returns_design_witness :
    1 ≤ 1 ∧
    (([4, 2, 1] : List Nat).length = 4 * 1 - 1 ∧
      (∀ r ∈ ([4, 2, 1] : List Nat), r < 2 ^ (4 * 1 - 1) ∧ popcount r = 2 * 1 - 1) ∧
      (∀ i j : Fin ([4, 2, 1] : List Nat).length, i ≠ j →
        popcount (([4, 2, 1] : List Nat).get i &&& ([4, 2, 1] : List Nat).get j) = 1 - 1)) :=
  ⟨le_refl 1, C1_find_returns_design 1 (le_refl 1) [4, 2, 1] (by decide)⟩

/-- Claim C3: from `build_row(0, k, 0, ...)` the yielded values are exactly
the rows `r < 2^m` with `popcount r = k` meeting every overlap requirement;
and at `p = m` the accumulated row is yielded iff `onesLeft = 0` and every
requirement entry is exactly `0`. -/
theorem C3_build_row_exact (m n ones_left : Nat) (prevs : List Nat) (reqs : List Int)
    (hlen : prevs.length = reqs.length) (hnonneg : ∀ x ∈ reqs, 0 ≤ x) :
    (∀ r, r ∈ build_row 0 ones_left 0 prevs reqs m n ↔
      (r < 2 ^ m ∧ popcount r = ones_left ∧
        List.Forall₂ (fun p x => (popcount (p &&& r) : Int) = x) prevs reqs)) ∧
    (∀ current_row r : Nat, r ∈ build_row m ones_left current_row prevs reqs m n ↔
      (r = current_row ∧ ones_left = 0 ∧ ∀ x ∈ reqs, x = 0)) :=
  ⟨fun r => build_row_mem m n ones_left prevs reqs hlen r,
   fun current_row r => build_row_base m n ones_left current_row prevs reqs r⟩

theorem C3_build_row_exact_witness :
    (([4] : List Nat).length = ([0] : List Int).length ∧ ∀ x ∈ ([0] : List Int), 0 ≤ x) ∧
    ((∀ r, r ∈ build_row 0 1 0 [4] [0] 3 1 ↔
      (r < 2 ^ 3 ∧ popcount r = 1 ∧
        List.Forall₂ (fun p x => (popcount (p &&& r) : Int) = x) [4] [0])) ∧
    (∀ current_row r : Nat, r ∈ build_row 3 1 current_row [4] [0] 3 1 ↔
      (r = current_row ∧ 1 = 0 ∧ ∀ x ∈ ([0] : List Int), x = 0))) :=
  ⟨⟨by decide, by decide⟩,
   C3_build_row_exact 3 1 1 [4] [0] (by decide) (by decide)⟩

/-- Claim C4: for a fixed prefix (a `current_row` occupying only the bit
positions already decided) and requirement vector, the candidate sequence
of `build_row` is strictly descending in numeric value. -/
theorem C4_build_row_descending (m n bit_index ones_left current_row : Nat)
    (prevs : List Nat) (reqs : List Int) (hbi : bit_index ≤ m)
    (hdvd : 2 ^ (m - bit_index) ∣ current_row) :
    List.Pairwise (· > ·) (build_row bit_index ones_left current_row prevs reqs m n) :=
  build_row_aux_sorted m n (m - bit_index) bit_index ones_left current_row prevs reqs
    (by omega) hdvd

theorem C4_build_row_descending_witness :
    (0 ≤ 3 ∧ 2 ^ (3 - 0) ∣ 0) ∧
    List.Pairwise (· > ·) (build_row 0 1 0 [4] [0] 3 1) :=
  ⟨⟨by decide, by decide⟩,
   C4_build_row_descending 3 1 0 1 0 [4] [0] (by decide) (by decide)⟩

/-- Claim C5: the search always terminates with a design or `none`; and on
a corrupted requirement vector (an entry negative or larger than the number
of ones to place) the candidate generator yields nothing at all, so the
search ends reporting no result. -/
theorem C5_search_terminates (n : Nat) (hn : 1 ≤ n) :
    (find_minimal_hadamard n = none ∨ ∃ design, find_minimal_hadamard n = some design) ∧
    (∀ (m' ones_left : Nat) (prevs : List Nat) (reqs : List Int) (x : Int),
      prevs.length = reqs.length → x ∈ reqs → (x < 0 ∨ (ones_left : Int) < x) →
      build_row 0 ones_left 0 prevs reqs m' n = []) := by
  constructor
  · cases h : find_minimal_hadamard n with
    | none => exact Or.inl rfl
    | some d => exact Or.inr ⟨d, rfl⟩
  · intro m' ones_left prevs reqs x hlen hx hbad
    rw [List.eq_nil_iff_forall_not_mem]
    intro r hr
    rw [build_row_mem m' n ones_left prevs reqs hlen r] at hr
    obtain ⟨hlt, hpc, hf⟩ := hr
    obtain ⟨p, hp, hpx⟩ := forall₂_exists_left hf x hx
    have hble : popcount (p &&& r) ≤ popcount r := popcount_land_le r p
    omega

theorem C5_search_terminates_witness :
    build_row 0 1 0 [4] [5] 3 1 = [] :=
  (C5_search_terminates 1 (le_refl 1)).2 3 1 [4] [5] 5 (by decide) (by decide)
    (Or.inr (by decide))

/-! ### The expanded ±1 matrix and its row dot products -/

/-- The `0 → -1, 1 → +1` mapping on `0/1` entries (`±1 = 2·bit - 1`). -/
def pm1 (b : Int) : Int := 2 * b - 1

/-- Dot product of two equally long integer rows. -/
def dotInt (u v : List Int) : Int := (List.zipWith (· * ·) u v).sum

/-- The `m` bits of a design row, most- to least-significant, as `0/1`
integers (the list `print_hadamard_01` prints after the leading `1`). -/
def bitsList (m r : Nat) : List Int :=
  (List.range m).map (fun j => if r.testBit (m - 1 - j) then (1 : Int) else 0)

/-- One expanded matrix row: the leading `1` of the all-ones column
followed by the design row's bits. -/
def expandRow (m r : Nat) : List Int := 1 :: bitsList m r

/-- The full expanded `4n × 4n` `0/1` matrix: all-ones row `0`, then one
expanded row per design row. -/
def expandMatrix (n : Nat) (rows : List Nat) : List (List Int) :=
  List.replicate (4 * n) (1 : Int) :: rows.map (expandRow (4 * n - 1))

/-- The expanded matrix mapped to `±1` entries. -/
def pmMatrix (n : Nat) (rows : List Nat) : List (List Int) :=
  (expandMatrix n rows).map (List.map pm1)

theorem zipWith_mul_map_same {α : Type} (f g : α → Int) :
    ∀ l : List α, List.zipWith (· * ·) (l.map f) (l.map g) = l.map (fun x => f x * g x) := by
  intro l
  induction l with
  | nil => rfl
  | cons a as ih => simp [ih]

theorem bitsList_length (m r : Nat) : (bitsList m r).length = m := by
  simp [bitsList]

theorem bitsList_mul (m r r' : Nat) :
    List.zipWith (· * ·) (bitsList m r) (bitsList m r') = bitsList m (r &&& r') := by
  rw [bitsList, bitsList, zipWith_mul_map_same]
  apply List.map_congr_left
  intro j _
  rw [show (r &&& r').testBit (m - 1 - j) = (r.testBit (m - 1 - j) && r'.testBit (m - 1 - j))
    from Nat.testBit_and r r' (m - 1 - j)]
  cases r.testBit (m - 1 - j) <;> cases r'.testBit (m - 1 - j) <;> simp

theorem sum_indicator_testBit (k : Nat) :
    ∀ r : Nat, r < 2 ^ k →
    ((List.range k).map (fun j => if r.testBit j then (1 : Int) else 0)).sum = popcount r := by
  induction k with
  | zero =>
    intro r hr
    interval_cases r
    simp [popcount_zero]
  | succ k ih =>
    intro r hr
    have hpow : 2 ^ (k + 1) = 2 ^ k * 2 := pow_succ 2 k
    rw [List.range_succ_eq_map, List.map_cons, List.map_map, List.sum_cons]
    have hmap : (List.map ((fun j => if r.testBit j then (1 : Int) else 0) ∘ Nat.succ)
        (List.range k)) = (List.range k).map (fun j => if (r / 2).testBit j then (1 : Int) else 0) := by
      apply List.map_congr_left
      intro j _
      simp [Function.comp, Nat.testBit_add_one]
    rw [hmap, ih (r / 2) (by omega)]
    have hbit0 : (if r.testBit 0 then (1 : Int) else 0) = ((r % 2 : Nat) : Int) := by
      rw [Nat.testBit_zero]
      rcases Nat.mod_two_eq_zero_or_one r with h | h <;> simp [h]
    rw [hbit0, popcount_rec r]
    push_cast
    ring

theorem bitsList_reverse (m r : Nat) :
    bitsList m r = ((List.range m).map (fun j => if r.testBit j then (1 : Int) else 0)).reverse := by
  apply List.ext_getElem
  · simp [bitsList]
  · intro i hi hi'
    simp only [bitsList, List.getElem_map, List.getElem_range, List.getElem_reverse,
      List.length_map, List.length_range]

theorem bitsList_sum (m r : Nat) (h : r < 2 ^ m) : (bitsList m r).sum = popcount r := by
  rw [bitsList_reverse, List.sum_reverse, sum_indicator_testBit m r h]

theorem dotInt_comm (u v : List Int) : dotInt u v = dotInt v u := by
  rw [dotInt, dotInt, List.zipWith_comm_of_comm _ mul_comm]

theorem dotInt_ones_left : ∀ v : List Int, dotInt (List.replicate v.length 1) v = v.sum := by
  intro v
  induction v with
  | nil => rfl
  | cons a as ih => simp [dotInt, List.replicate_succ] at ih ⊢; omega

theorem sum_replicate_one (L : Nat) : (List.replicate L (1 : Int)).sum = L := by
  induction L with
  | zero => rfl
  | succ L ih =>
    simp [List.replicate_succ, ih]
    omega

theorem dot_pm1 : ∀ u v : List Int, u.length = v.length →
    dotInt (u.map pm1) (v.map pm1) =
      4 * dotInt u v - 2 * u.sum - 2 * v.sum + u.length := by
  intro u
  induction u with
  | nil =>
    intro v hv
    obtain rfl : v = [] := by
      cases v with
      | nil => rfl
      | cons b bs => simp at hv
    simp [dotInt]
  | cons a as ih =>
    intro v hv
    cases v with
    | nil => simp at hv
    | cons b bs =>
      have hlen : as.length = bs.length := by simpa using hv
      simp only [List.map_cons, dotInt, List.zipWith_cons_cons, List.sum_cons,
        List.length_cons] at ih ⊢
      rw [ih bs hlen]
      have : pm1 a * pm1 b = 4 * (a * b) - 2 * a - 2 * b + 1 := by
        rw [pm1, pm1]
        ring
      push_cast
      rw [this]
      ring

theorem dot_expandRow (m r r' : Nat) (hr' : r' < 2 ^ m) :
    dotInt (expandRow m r) (expandRow m r') = 1 + (popcount (r &&& r') : Int) := by
  have hland : r &&& r' < 2 ^ m := lt_of_le_of_lt Nat.and_le_right hr'
  simp only [expandRow, dotInt, List.zipWith_cons_cons, List.sum_cons]
  rw [bitsList_mul, bitsList_sum m (r &&& r') hland]
  norm_num

theorem expandRow_sum (m r : Nat) (h : r < 2 ^ m) :
    (expandRow m r).sum = 1 + (popcount r : Int) := by
  simp [expandRow, bitsList_sum m r h]

theorem expandRow_length (m r : Nat) : (expandRow m r).length = m + 1 := by
  simp [expandRow, bitsList_length]

/-- Claim C2: for every `n ≥ 1` and returned design, the expanded `4n × 4n`
matrix mapped `0 → -1, 1 → +1` is a Hadamard matrix: each row dots to `4n`
with itself and to `0` with every other row. -/
theorem C2_expanded_hadamard (n : Nat) (hn : 1 ≤ n) (rows : List Nat)
    (hf : find_minimal_hadamard n = some rows) :
    (pmMatrix n rows).length = 4 * n ∧
    ∀ i j : Fin (pmMatrix n rows).length,
      dotInt ((pmMatrix n rows).get i) ((pmMatrix n rows).get j) =
        if (i : Nat) = (j : Nat) then (4 * n : Int) else 0 := by
  obtain ⟨⟨hmem, hpw⟩, hlen⟩ := find_sound n hn rows hf
  have hL : (pmMatrix n rows).length = 4 * n := by
    simp only [pmMatrix, expandMatrix, List.length_map, List.length_cons, hlen]
    omega
  refine ⟨hL, ?_⟩
  have hrow : ∀ (k : Nat) (hk : k < (pmMatrix n rows).length),
      (k = 0 ∧ (pmMatrix n rows).get ⟨k, hk⟩ =
        List.map pm1 (List.replicate (4 * n) (1 : Int))) ∨
      (∃ (k' : Nat) (hk' : k' < rows.length), k = k' + 1 ∧
        (pmMatrix n rows).get ⟨k, hk⟩ =
          List.map pm1 (expandRow (4 * n - 1) (rows.get ⟨k', hk'⟩))) := by
    intro k hk
    cases k with
    | zero =>
      left
      refine ⟨rfl, ?_⟩
      simp [pmMatrix, expandMatrix]
    | succ k' =>
      right
      have hk' : k' < rows.length := by
        have h2 := hk
        simp only [pmMatrix, expandMatrix, List.length_map, List.length_cons] at h2
        omega
      refine ⟨k', hk', rfl, ?_⟩
      simp [pmMatrix, expandMatrix]
  have hOsum := sum_replicate_one (4 * n)
  have hOlen : (List.replicate (4 * n) (1 : Int)).length = 4 * n := by simp
  have hdOO : dotInt (List.replicate (4 * n) (1 : Int)) (List.replicate (4 * n) (1 : Int)) =
      ((4 * n : Nat) : Int) := by
    have h := dotInt_ones_left (List.replicate (4 * n) (1 : Int))
    rw [hOlen] at h
    rw [h, hOsum]
  have hAfacts : ∀ (k : Nat) (hk : k < rows.length),
      rows.get ⟨k, hk⟩ < 2 ^ (4 * n - 1) ∧ popcount (rows.get ⟨k, hk⟩) = 2 * n - 1 :=
    fun k hk => hmem _ (List.get_mem rows k hk)
  have hAlen : ∀ r : Nat, (expandRow (4 * n - 1) r).length = 4 * n := by
    intro r
    rw [expandRow_length]
    omega
  have hAsum : ∀ r : Nat, r < 2 ^ (4 * n - 1) → popcount r = 2 * n - 1 →
      (expandRow (4 * n - 1) r).sum = ((2 * n : Nat) : Int) := by
    intro r h1 h2
    rw [expandRow_sum _ r h1, h2]
    push_cast
    omega
  have hdOA : ∀ r : Nat, dotInt (List.replicate (4 * n) (1 : Int)) (expandRow (4 * n - 1) r) =
      (expandRow (4 * n - 1) r).sum := by
    intro r
    have h := dotInt_ones_left (expandRow (4 * n - 1) r)
    rw [hAlen r] at h
    exact h
  have hoff : ∀ (a b : Fin rows.length), a ≠ b →
      (popcount (rows.get a &&& rows.get b) : Int) = (n : Int) - 1 := by
    intro a b hab
    rcases Ne.lt_or_lt hab with h | h
    · exact List.pairwise_iff_get.mp hpw a b h
    · rw [Nat.land_comm]
      exact List.pairwise_iff_get.mp hpw b a h
  intro i j
  rcases hrow i.1 i.2 with ⟨hi0, hieq⟩ | ⟨ki, hki, hisucc, hieq⟩ <;>
    rcases hrow j.1 j.2 with ⟨hj0, hjeq⟩ | ⟨kj, hkj, hjsucc, hjeq⟩
  · -- both row 0
    rw [hieq, hjeq, if_pos (by omega), dot_pm1 _ _ rfl, hdOO, hOsum, hOlen]
    push_cast
    ring
  · -- i = 0, j = kj + 1
    obtain ⟨hjlt, hjpc⟩ := hAfacts kj hkj
    rw [hieq, hjeq, if_neg (by omega),
      dot_pm1 _ _ (by rw [hOlen, hAlen]), hdOA, hAsum _ hjlt hjpc, hOsum, hOlen]
    push_cast
    ring
  · -- i = ki + 1, j = 0
    obtain ⟨hilt, hipc⟩ := hAfacts ki hki
    rw [hieq, hjeq, if_neg (by omega), dot_pm1 _ _ (by rw [hAlen, hOlen]),
      dotInt_comm, hdOA, hAsum _ hilt hipc, hOsum, hAlen]
    push_cast
    ring
  · -- both design rows
    obtain ⟨hilt, hipc⟩ := hAfacts ki hki
    obtain ⟨hjlt, hjpc⟩ := hAfacts kj hkj
    rw [hieq, hjeq, dot_pm1 _ _ (by rw [hAlen, hAlen]),
      dot_expandRow _ _ _ hjlt, hAsum _ hilt hipc, hAsum _ hjlt hjpc, hAlen]
    by_cases hkk : ki = kj
    · subst hkk
      have hsame : rows.get ⟨ki, hkj⟩ = rows.get ⟨ki, hki⟩ := rfl
      rw [if_pos (by omega), hsame, Nat.and_self, hipc]
      push_cast
      omega
    · have hne : (⟨ki, hki⟩ : Fin rows.length) ≠ ⟨kj, hkj⟩ :=
        Fin.ne_of_val_ne hkk
      rw [if_neg (by omega), hoff ⟨ki, hki⟩ ⟨kj, hkj⟩ hne]
      push_cast
      omega

theorem C2_expanded_hadamard_witness :
    1 ≤ 1 ∧
    ((pmMatrix 1 [4, 2, 1]).length = 4 * 1 ∧
      ∀ i j : Fin (pmMatrix 1 [4, 2, 1]).length,
        dotInt ((pmMatrix 1 [4, 2, 1]).get i) ((pmMatrix 1 [4, 2, 1]).get j) =
          if (i : Nat) = (j : Nat) then (4 * 1 : Int) else 0) :=
  ⟨le_refl 1, C2_expanded_hadamard 1 (le_refl 1) [4, 2, 1] (by decide)⟩

/-- Claim C6: the program's output is the elapsed-time line, followed (only
on success) by exactly `4n` `Row <i>:` lines, `i = 0 .. 4n-1`, each carrying
`4n` values in `{0,1}`; row `0` is all ones, row `k+1` is a leading `1`
followed by design row `k`'s bits from most- to least-significant; on
failure no matrix lines are printed. -/
theorem C6_output_shape (n : Nat) (hn : 1 ≤ n) :
    (find_minimal_hadamard n = none → main_output n = [OutputLine.elapsed]) ∧
    (∀ rows, find_minimal_hadamard n = some rows →
      (main_output n).length = 1 + 4 * n ∧
      (main_output n).getD 0 OutputLine.elapsed = OutputLine.elapsed ∧
      (∀ k, k < 4 * n → ∃ vals,
        (main_output n).getD (k + 1) OutputLine.elapsed = OutputLine.row k vals ∧
        vals.length = 4 * n ∧ (∀ v ∈ vals, v = 0 ∨ v = 1) ∧
        (k = 0 → vals = List.replicate (4 * n) (1 : Int)) ∧
        (∀ k', k = k' + 1 →
          vals = 1 :: (List.range (4 * n - 1)).map
            (fun j => if (rows.getD k' 0).testBit (4 * n - 1 - 1 - j) then (1 : Int)
              else 0)))) := by
  constructor
  · intro h
    unfold main_output
    rw [h]
  · intro rows hf
    obtain ⟨⟨hmem, _⟩, hlen⟩ := find_sound n hn rows hf
    cases rows with
    | nil =>
      simp only [List.length_nil] at hlen
      omega
    | cons r rs =>
      have hmo : main_output n = OutputLine.elapsed :: print_hadamard_01 n (r :: rs) := by
        unfold main_output
        rw [hf]
      simp only [List.length_cons] at hlen
      have hplen : (print_hadamard_01 n (r :: rs)).length = 4 * n := by
        simp only [print_hadamard_01, List.length_cons, List.length_map, List.enum_length]
        omega
      refine ⟨?_, ?_, ?_⟩
      · rw [hmo, List.length_cons, hplen]
        omega
      · rw [hmo]
        rfl
      · intro k hk
        rw [hmo, List.getD_cons_succ]
        cases k with
        | zero =>
          refine ⟨List.replicate (4 * n) (1 : Int), ?_, by simp, ?_, fun _ => rfl,
            fun k' h => absurd h (by omega)⟩
          · rw [print_hadamard_01]
            rfl
          · intro v hv
            exact Or.inr (List.eq_of_mem_replicate hv)
        | succ k' =>
          have hk' : k' < (r :: rs).length := by
            simp only [List.length_cons]
            omega
          refine ⟨1 :: (List.range (4 * n - 1)).map
              (fun j => if ((r :: rs).getD k' 0).testBit (4 * n - 1 - 1 - j) then (1 : Int)
                else 0), ?_, ?_, ?_, fun h => absurd h (by omega), ?_⟩
          · rw [print_hadamard_01, List.getD_cons_succ]
            have hbound : k' < ((r :: rs).enum.map (fun p =>
                OutputLine.row (p.1 + 1)
                  (1 :: (List.range (4 * n - 1)).map
                    (fun j => if p.2.testBit (4 * n - 1 - 1 - j) then (1 : Int) else 0)))).length := by
              simpa using hk'
            rw [List.getD_eq_getElem?_getD, List.getElem?_eq_getElem hbound]
            simp only [List.getElem_map, List.getElem_enum, Option.getD_some]
            rw [List.getD_eq_getElem?_getD, List.getElem?_eq_getElem hk']
            rfl
          · simp only [List.length_cons, List.length_map, List.length_range]
            omega
          · intro v hv
            rcases List.mem_cons.mp hv with rfl | hv
            · exact Or.inr rfl
            · obtain ⟨j, _, hj⟩ := List.mem_map.mp hv
              by_cases hb : ((r :: rs).getD k' 0).testBit (4 * n - 1 - 1 - j)
              · rw [if_pos hb] at hj
                exact Or.inr hj.symm
              · rw [if_neg hb] at hj
                exact Or.inl hj.symm
          · intro k'' h
            obtain rfl : k' = k'' := by omega
            rfl

/-! ### State restoration of the backtracking loop -/

theorem stepS_some_eq (b : List Nat → Option (List Nat) × List Nat)
    (res st : List Nat) (c : Nat) : stepS b (some res, st) c = (some res, st) := rfl

theorem stepS_none_eq (b : List Nat → Option (List Nat) × List Nat)
    (st : List Nat) (c : Nat) :
    stepS b (none, st) c =
      (match b (st ++ [c]) with
       | (some (r :: rs), st') => (some (r :: rs), st')
       | (_, st') => (none, st'.dropLast)) := rfl

theorem stepS_none_of_none (b : List Nat → Option (List Nat) × List Nat)
    (st : List Nat) (c : Nat) (st' : List Nat) (h : b (st ++ [c]) = (none, st')) :
    stepS b (none, st) c = (none, st'.dropLast) := by
  rw [stepS_none_eq, h]

theorem stepS_none_of_some_nil (b : List Nat → Option (List Nat) × List Nat)
    (st : List Nat) (c : Nat) (st' : List Nat) (h : b (st ++ [c]) = (some [], st')) :
    stepS b (none, st) c = (none, st'.dropLast) := by
  rw [stepS_none_eq, h]

theorem stepS_none_of_some_cons (b : List Nat → Option (List Nat) × List Nat)
    (st : List Nat) (c : Nat) (st' : List Nat) (r : Nat) (rs : List Nat)
    (h : b (st ++ [c]) = (some (r :: rs), st')) :
    stepS b (none, st) c = (some (r :: rs), st') := by
  rw [stepS_none_eq, h]

theorem foldl_stepS_some (b : List Nat → Option (List Nat) × List Nat) :
    ∀ (cands : List Nat) (res st : List Nat),
    cands.foldl (stepS b) (some res, st) = (some res, st) := by
  intro cands
  induction cands with
  | nil => intro res st; rfl
  | cons c cs ih =>
    intro res st
    rw [List.foldl_cons, stepS_some_eq]
    exact ih res st

/-- Invariant of the instrumented candidate loop: provided the recursive
call restores its argument on failure and returns its final state as the
result (a longer list) on success, the loop restores its starting state on
failure and reports the final state on success. -/
theorem foldl_stepS_state (b : List Nat → Option (List Nat) × List Nat)
    (hb : ∀ rows : List Nat,
      ((b rows).1 = none → (b rows).2 = rows) ∧
      (∀ res, (b rows).1 = some res → (b rows).2 = res ∧ rows.length ≤ res.length)) :
    ∀ (cands rows' : List Nat),
      ((cands.foldl (stepS b) (none, rows')).1 = none →
        (cands.foldl (stepS b) (none, rows')).2 = rows') ∧
      (∀ res, (cands.foldl (stepS b) (none, rows')).1 = some res →
        (cands.foldl (stepS b) (none, rows')).2 = res ∧ rows'.length + 1 ≤ res.length) := by
  intro cands
  induction cands with
  | nil =>
    intro rows'
    exact ⟨fun _ => rfl, fun res h => by simp at h⟩
  | cons c cs ih =>
    intro rows'
    rw [List.foldl_cons]
    cases hsub : b (rows' ++ [c]) with
    | mk o st' =>
      cases o with
      | none =>
        have hst' : st' = rows' ++ [c] := by
          have h1 := (hb (rows' ++ [c])).1
          rw [hsub] at h1
          exact h1 rfl
        rw [stepS_none_of_none b rows' c st' hsub, hst', List.dropLast_concat]
        exact ih rows'
      | some res' =>
        cases res' with
        | nil =>
          exfalso
          have h2 := (hb (rows' ++ [c])).2 []
          rw [hsub] at h2
          obtain ⟨_, hlen⟩ := h2 rfl
          simp at hlen
        | cons r rs =>
          have h2 := (hb (rows' ++ [c])).2 (r :: rs)
          rw [hsub] at h2
          obtain ⟨hst', hlen⟩ := h2 rfl
          rw [stepS_none_of_some_cons b rows' c st' r rs hsub, foldl_stepS_some]
          refine ⟨fun h => by simp at h, ?_⟩
          intro res hres
          obtain rfl : r :: rs = res := by simpa using hres
          refine ⟨hst', ?_⟩
          have hlc : (rows' ++ [c]).length = rows'.length + 1 := by simp
          omega

/-- The recursive state-restoration property of the instrumented search:
on failure the final contents of `rows` equal its contents at entry; on
success the returned design is the final contents. -/
theorem backtrackS_state (size total_ones m n : Nat) :
    ∀ (fuel : Nat) (rows : List Nat),
      ((backtrackS fuel size total_ones m n rows).1 = none →
        (backtrackS fuel size total_ones m n rows).2 = rows) ∧
      (∀ res, (backtrackS fuel size total_ones m n rows).1 = some res →
        (backtrackS fuel size total_ones m n rows).2 = res ∧ rows.length ≤ res.length) := by
  intro fuel
  induction fuel with
  | zero =>
    intro rows
    exact ⟨fun _ => rfl, fun res h => by simp [backtrackS] at h⟩
  | succ fuel ih =>
    intro rows
    by_cases hlen : rows.length = size - 1
    · constructor
      · intro h
        simp only [backtrackS, if_pos hlen] at h
        simp at h
      · intro res h
        simp only [backtrackS, if_pos hlen] at h ⊢
        obtain rfl : rows = res := by simpa using h
        exact ⟨rfl, le_refl _⟩
    · have hfold := foldl_stepS_state
        (fun rows' => backtrackS fuel size total_ones m n rows') ih
        (build_row 0 total_ones 0 rows (List.replicate rows.length ((n : Int) - 1)) m n) rows
      constructor
      · intro h
        simp only [backtrackS, if_neg hlen] at h ⊢
        exact hfold.1 h
      · intro res h
        simp only [backtrackS, if_neg hlen] at h ⊢
        obtain ⟨h2, h3⟩ := hfold.2 res h
        exact ⟨h2, by omega⟩

theorem findSome?_congr {α β : Type} (f g : α → Option β) :
    ∀ l : List α, (∀ a ∈ l, f a = g a) → l.findSome? f = l.findSome? g := by
  intro l
  induction l with
  | nil => intro _; rfl
  | cons a as ih =>
    intro h
    have ha := h a (List.mem_cons_self a as)
    cases hg : g a with
    | none =>
      rw [List.findSome?_cons_of_isNone as (by rw [ha, hg]; rfl),
        List.findSome?_cons_of_isNone as (by rw [hg]; rfl)]
      exact ih (fun x hx => h x (List.mem_cons_of_mem a hx))
    | some b =>
      rw [List.findSome?_cons_of_isSome as (by rw [ha, hg]; rfl),
        List.findSome?_cons_of_isSome as (by rw [hg]; rfl), ha]

/-- The result component of the instrumented candidate loop agrees with the
plain `findSome?` loop of `backtrack`. -/
theorem foldl_stepS_fst (b : List Nat → Option (List Nat) × List Nat)
    (hb : ∀ rows : List Nat,
      ((b rows).1 = none → (b rows).2 = rows) ∧
      (∀ res, (b rows).1 = some res → (b rows).2 = res ∧ rows.length ≤ res.length)) :
    ∀ (cands rows' : List Nat),
      (cands.foldl (stepS b) (none, rows')).1 =
        cands.findSome? (fun c =>
          match (b (rows' ++ [c])).1 with
          | some (r :: rs) => some (r :: rs)
          | _ => none) := by
  intro cands
  induction cands with
  | nil => intro rows'; rfl
  | cons c cs ih =>
    intro rows'
    rw [List.foldl_cons]
    cases hsub : b (rows' ++ [c]) with
    | mk o st' =>
      cases o with
      | none =>
        have hst' : st' = rows' ++ [c] := by
          have h1 := (hb (rows' ++ [c])).1
          rw [hsub] at h1
          exact h1 rfl
        have hf : (match (b (rows' ++ [c])).1 with
            | some (r :: rs) => some (r :: rs)
            | _ => (none : Option (List Nat))) = none := by
          rw [hsub]
        rw [stepS_none_of_none b rows' c st' hsub, hst', List.dropLast_concat,
          List.findSome?_cons_of_isNone cs (by rw [hf]; rfl)]
        exact ih rows'
      | some res' =>
        cases res' with
        | nil =>
          exfalso
          have h2 := (hb (rows' ++ [c])).2 []
          rw [hsub] at h2
          obtain ⟨_, hlen⟩ := h2 rfl
          simp at hlen
        | cons r rs =>
          have hf : (match (b (rows' ++ [c])).1 with
              | some (r :: rs) => some (r :: rs)
              | _ => (none : Option (List Nat))) = some (r :: rs) := by
            rw [hsub]
          rw [stepS_none_of_some_cons b rows' c st' r rs hsub, foldl_stepS_some,
            List.findSome?_cons_of_isSome cs (by rw [hf]; rfl), hf]

/-- `backtrack` is the result component of the instrumented `backtrackS`. -/
theorem backtrack_eq_backtrackS (size total_ones m n : Nat) :
    ∀ (fuel : Nat) (rows : List Nat),
      backtrack fuel size total_ones m n rows =
        (backtrackS fuel size total_ones m n rows).1 := by
  intro fuel
  induction fuel with
  | zero => intro rows; rfl
  | succ fuel ih =>
    intro rows
    by_cases hlen : rows.length = size - 1
    · simp [backtrack, backtrackS, hlen]
    · simp only [backtrack, backtrackS, if_neg hlen]
      rw [foldl_stepS_fst (fun rows' => backtrackS fuel size total_ones m n rows')
        (backtrackS_state size total_ones m n fuel) _ rows]
      apply findSome?_congr
      intro c _
      rw [ih (rows ++ [c])]

/-- Claim C8: the partial matrix is restored on failure — whenever the
search returns `None` the list `rows` holds exactly the elements it held at
entry (every append is undone by the matching pop), and after an exhausted
top-level search the matrix holds only the synthesized first row. -/
theorem C8_rows_restored_on_failure :
    (∀ (fuel size total_ones m n : Nat) (rows : List Nat),
      (backtrackS fuel size total_ones m n rows).1 = none →
      (backtrackS fuel size total_ones m n rows).2 = rows) ∧
    (∀ n : Nat, 1 ≤ n → find_minimal_hadamard n = none →
      (backtrackS (4 * n) (4 * n) (2 * n - 1) (4 * n - 1) n [first_row n]).2 =
        [first_row n]) := by
  constructor
  · intro fuel size total_ones m n rows h
    exact (backtrackS_state size total_ones m n fuel rows).1 h
  · intro n _ hf
    apply (backtrackS_state (4 * n) (2 * n - 1) (4 * n - 1) n (4 * n) [first_row n]).1
    rw [← backtrack_eq_backtrackS]
    exact hf

theorem C8_rows_restored_on_failure_witness :
    (backtrackS 3 3 5 2 1 [0]).2 = [0] :=
  C8_rows_restored_on_failure.1 3 3 5 2 1 [0] (by decide)

/-- Claim C7: the search is deterministic and free of mutation of its
inputs — in this value-level embedding of the source two invocations with
identical arguments are literally the same value, and after a failed search
the restored state drives an identical rerun. -/
theorem C7_deterministic :
    (∀ (bit_index ones_left current_row : Nat) (prev_rows : List Nat)
      (overlaps_needed : List Int) (m n : Nat),
      build_row bit_index ones_left current_row prev_rows overlaps_needed m n =
        build_row bit_index ones_left current_row prev_rows overlaps_needed m n) ∧
    (∀ n : Nat, find_minimal_hadamard n = find_minimal_hadamard n ∧
      main_output n = main_output n) ∧
    (∀ (fuel size total_ones m n : Nat) (rows : List Nat),
      (backtrackS fuel size total_ones m n rows).1 = none →
      backtrack fuel size total_ones m n ((backtrackS fuel size total_ones m n rows).2) =
        backtrack fuel size total_ones m n rows) := by
  refine ⟨fun _ _ _ _ _ _ _ => rfl, fun _ => ⟨rfl, rfl⟩, ?_⟩
  intro fuel size total_ones m n rows h
  rw [(backtrackS_state size total_ones m n fuel rows).1 h]

theorem C7_deterministic_witness :
    backtrack 3 3 5 2 1 ((backtrackS 3 3 5 2 1 [0]).2) = backtrack 3 3 5 2 1 [0] :=
  C7_deterministic.2.2 3 3 5 2 1 [0] (by decide)

/-- Claim C9: for `n = 1` the search succeeds with the design rows
`0b100, 0b010, 0b001`; the printed `4×4` matrix has all-ones row 0 and rows
`[1,1,0,0]`, `[1,0,1,0]`, `[1,0,0,1]`, and its `±1` image is a Hadamard
matrix of order 4. -/
theorem C9_n1_concrete :
    find_minimal_hadamard 1 = some [4, 2, 1] ∧
    main_output 1 = [OutputLine.elapsed, OutputLine.row 0 [1, 1, 1, 1],
      OutputLine.row 1 [1, 1, 0, 0], OutputLine.row 2 [1, 0, 1, 0],
      OutputLine.row 3 [1, 0, 0, 1]] ∧
    (∀ i j : Fin 4,
      dotInt ((pmMatrix 1 [4, 2, 1]).getD i []) ((pmMatrix 1 [4, 2, 1]).getD j []) =
        if (i : Nat) = (j : Nat) then 4 else 0) :=
  ⟨by decide, by decide, by decide⟩

theorem except_error_bind {ε α β : Type} (e : ε) (f : α → Except ε β) :
    (Except.error e >>= f : Except ε β) = Except.error e := rfl

theorem except_pure_bind {ε α β : Type} (a : α) (f : α → Except ε β) :
    ((pure a : Except ε α) >>= f) = f a := rfl

/-- Claim C10: `find_minimal_hadamard` does not validate its parameter:
for every integer `n ≤ 0` the run raises a negative-shift-count error from
the bit test of `build_row` (the shift amount `m - 1 = 4n - 2` is negative)
and therefore neither returns `None` nor prints anything. -/
theorem C10_invalid_parameter (n : Int) (hn : n ≤ 0) :
    find_minimal_hadamardE n = Except.error "negative shift count" ∧
    main_outputE n = Except.error "negative shift count" := by
  have h1 : (2 * n - 1).toNat = 0 := Int.toNat_of_nonpos (by omega)
  have hfind : find_minimal_hadamardE n = Except.error "negative shift count" := by
    simp only [find_minimal_hadamardE, h1, List.range_zero, List.mapM_nil, except_pure_bind]
    simp only [backtrackE, List.sum_nil]
    rw [if_neg (show ¬((([(0 : Int)] : List Int).length : Int) = 4 * n - 1) by simp; omega)]
    have hco : clear_overlapsE (4 * n - 1 - 1 - 0) (4 * n - 1 - 0 - 1) [0]
        (List.replicate ([(0 : Int)] : List Int).length (n - 1)) =
        Except.error "negative shift count" := by
      simp only [List.length_cons, List.length_nil, List.replicate_one, clear_overlapsE,
        pyShiftRight]
      rw [if_pos (show (4 : Int) * n - 1 - 1 - 0 < 0 by omega)]
      rfl
    have hbr : build_rowE ((4 * n - 1).toNat + 2) 0 (2 * n - 1) 0 [0]
        (List.replicate ([(0 : Int)] : List Int).length (n - 1)) (4 * n - 1) n =
        Except.error "negative shift count" := by
      simp only [build_rowE]
      rw [if_neg (show ¬((0 : Int) = 4 * n - 1) by omega)]
      rw [if_neg (show ¬((0 : Int) < 2 * n - 1) by omega)]
      rw [except_pure_bind, hco, except_error_bind]
    rw [hbr, except_error_bind]
  refine ⟨hfind, ?_⟩
  rw [main_outputE, hfind]

theorem C10_invalid_parameter_witness :
    find_minimal_hadamardE 0 = Except.error "negative shift count" ∧
    main_outputE 0 = Except.error "negative shift count" :=
  C10_invalid_parameter 0 (le_refl 0)

theorem C6_output_shape_witness :
    (main_output 1).length = 1 + 4 * 1 :=
  ((C6_output_shape 1 (le_refl 1)).2 [4, 2, 1] (by decide)).1

end MinimalReal
